import Mathlib

/-!
Shallow embedding of the text-indexing and retrieval core of `src/app.py`
(a Flask document search service).

Python strings are modelled as lists of characters (`Str`), one element per
code point, so that Python `len` is `List.length`.  Python dicts (which
preserve insertion order) are modelled as insertion-ordered association
lists.  The two module-level mutable tables (`inverted_index`, a
`defaultdict(list)`, and `document_store`, a plain dict) form an explicit
`AppState` threaded through the operations.  Subscripting a `defaultdict`
inserts a default value for a missing key; this is modelled by
`dictGetDefault`, and `search_documents` consequently returns the possibly
modified state alongside its result list.

Unicode caveats of the model, which do not affect any of the claims below:
`str.lower` is modelled by `Char.toLower` (ASCII case mapping; CPython also
lower-cases a handful of non-ASCII letters, all of which are then discarded
by the ASCII filter except for exotic compatibility characters such as the
Kelvin sign).
-/

namespace App

/-- Python strings, as lists of characters (one element per code point,
matching Python `len`). -/
abbrev Str := List Char

/-- Characters for which Python `str.isspace()` is true: these are what
`str.split()` (no separator) splits on and `str.strip()` removes. -/
def isPySpace (c : Char) : Bool :=
  let n := c.toNat
  (9 ≤ n && n ≤ 13) || (28 ≤ n && n ≤ 32) || n == 133 || n == 160 ||
  n == 0x1680 || (0x2000 ≤ n && n ≤ 0x200a) || n == 0x2028 || n == 0x2029 ||
  n == 0x202f || n == 0x205f || n == 0x3000

/-- The 32 characters of Python `string.punctuation`
(ASCII 33-47, 58-64, 91-96, 123-126). -/
def isPunct (c : Char) : Bool :=
  let n := c.toNat
  (33 ≤ n && n ≤ 47) || (58 ≤ n && n ≤ 64) || (91 ≤ n && n ≤ 96) ||
  (123 ≤ n && n ≤ 126)

/-- One-pass splitter behind `pySplit`; `acc` holds the reversed current
word (structural recursion, so the kernel can evaluate it). -/
def pySplitAux : Str → Str → List Str
  | [], acc => if acc.isEmpty then [] else [acc.reverse]
  | c :: rest, acc =>
    if isPySpace c then
      if acc.isEmpty then pySplitAux rest []
      else acc.reverse :: pySplitAux rest []
    else pySplitAux rest (c :: acc)

/-- Python `s.split()` with no separator: split on runs of whitespace,
discarding empty pieces. -/
def pySplit (s : Str) : List Str :=
  pySplitAux s []

/-- Python `s.strip()`: remove leading and trailing whitespace. -/
def pyStrip (s : Str) : Str :=
  ((s.dropWhile isPySpace).reverse.dropWhile isPySpace).reverse

/-- Python `content.split(chr 10)`: split on every newline character,
keeping empty pieces (so the result is never the empty list). -/
def splitNL (s : Str) : List Str :=
  match s with
  | [] => [[]]
  | c :: rest =>
    if c = '\n' then [] :: splitNL rest
    else
      match splitNL rest with
      | [] => [[c]]
      | w :: ws => (c :: w) :: ws

/-- The `STOP_WORDS` set of `app.py` (50 common English function words). -/
def STOP_WORDS : List Str :=
  ["the".data, "be".data, "to".data, "of".data, "and".data, "a".data,
   "in".data, "that".data, "have".data, "i".data,
   "it".data, "for".data, "not".data, "on".data, "with".data, "he".data,
   "as".data, "you".data, "do".data, "at".data,
   "this".data, "but".data, "his".data, "by".data, "from".data, "they".data,
   "we".data, "say".data, "her".data, "she".data,
   "or".data, "an".data, "will".data, "my".data, "one".data, "all".data,
   "would".data, "there".data, "their".data,
   "what".data, "so".data, "up".data, "out".data, "if".data, "about".data,
   "who".data, "get".data, "which".data, "go".data, "me".data]

/-- `preprocess_text` of `app.py`: lowercase, drop non-ASCII characters,
replace punctuation by spaces, split on whitespace, drop stop words and
words of length at most 2. -/
def preprocess_text (text : Str) : List Str :=
  let lowered := text.map Char.toLower
  let ascii := lowered.filter (fun c => c.toNat < 128)
  let depunct := ascii.map (fun c => if isPunct c then ' ' else c)
  (pySplit depunct).filter
    (fun w => !STOP_WORDS.contains w && decide (2 < w.length))

/-- The suffix list of `simple_stem`, in source order. -/
def suffixes : List Str :=
  ["ing".data, "ed".data, "es".data, "s".data, "ly".data, "tion".data,
   "ness".data, "ment".data]

/-- `simple_stem` of `app.py`: strip the first suffix in `suffixes` that
matches the word ending and satisfies `len(word) > len(suffix) + 2`;
otherwise return the word unchanged. -/
def simple_stem (word : Str) : Str :=
  match suffixes.find?
      (fun suf => List.isSuffixOf suf word && decide (suf.length + 2 < word.length)) with
  | some suf => word.take (word.length - suf.length)
  | none => word

/-- One recorded appearance of a term (an element of an `inverted_index`
occurrence list in `app.py`). -/
structure Occ where
  doc_id : Str
  line : Nat
  pos : Nat
  original_line : Str
deriving DecidableEq

/-- A `document_store` entry of `app.py`. -/
structure DocMeta where
  name : Str
  size : Nat
  lines : Nat
  indexed_at : Nat
deriving DecidableEq

/-- `inverted_index`: term to occurrence list, as an insertion-ordered
association list (Python dicts preserve insertion order). -/
abbrev Index := List (Str × List Occ)

/-- `document_store`: doc_id to metadata. -/
abbrev DocStore := List (Str × DocMeta)

/-- The two module-level tables of `app.py`. -/
structure AppState where
  inverted_index : Index
  document_store : DocStore
deriving DecidableEq

/-- The initial (empty) module state. -/
def initState : AppState := ⟨[], []⟩

/-- `d[k].append(b)` on a `defaultdict(list)` keyed by strings: extend the
list under `k`, creating the key (at the end, as Python does) if absent. -/
def appendAssoc {β : Type} (l : List (Str × List β)) (k : Str) (b : β) :
    List (Str × List β) :=
  match l with
  | [] => [(k, [b])]
  | (k0, v) :: rest =>
    if k0 = k then (k0, v ++ [b]) :: rest else (k0, v) :: appendAssoc rest k b

/-- Dict lookup (`k in d` / `d[k]` when present). -/
def lookupAssoc {β : Type} (l : List (Str × β)) (k : Str) : Option β :=
  match l with
  | [] => none
  | (k0, v) :: rest => if k0 = k then some v else lookupAssoc rest k

/-- The occurrence list under a key, empty if the key is absent. -/
def lookupListA {β : Type} (l : List (Str × List β)) (k : Str) : List β :=
  (lookupAssoc l k).getD []

/-- Subscripting a `defaultdict(list)`: return the stored list, or insert
and return the empty default for a missing key (the mutation Python
performs even on a read). -/
def dictGetDefault (idx : Index) (t : Str) : List Occ × Index :=
  match lookupAssoc idx t with
  | some v => (v, idx)
  | none => ([], idx ++ [(t, [])])

/-- `d[k] = m` on a plain dict (overwrite keeps the key position). -/
def storeSet (s : DocStore) (d : Str) (m : DocMeta) : DocStore :=
  match s with
  | [] => [(d, m)]
  | (k, v) :: rest =>
    if k = d then (k, m) :: rest else (k, v) :: storeSet rest d m

/-- Indexing one non-blank line (the inner loop of `build_index`): one
occurrence per preprocessed word, keyed by its stem, with `pos` the
position in that line's token sequence. -/
def indexLine (idx : Index) (d : Str) (ln : Nat) (line : Str) : Index :=
  (preprocess_text line).enum.foldl
    (fun acc pw =>
      appendAssoc acc (simple_stem pw.2) ⟨d, ln, pw.1, (pyStrip line).take 200⟩)
    idx

/-- The line loop of `build_index`: lines numbered from `ln` upward,
blank lines (empty after stripping) skipped. -/
def indexLines (d : Str) (idx : Index) (ln : Nat) : List Str → Index
  | [] => idx
  | l :: rest =>
    indexLines d (if (pyStrip l).isEmpty then idx else indexLine idx d ln l)
      (ln + 1) rest

/-- `build_index(doc_id, content, doc_name)` of `app.py`; `now` stands for
`time.time()`. -/
def build_index (st : AppState) (doc_id content doc_name : Str) (now : Nat) :
    AppState :=
  let lines := splitNL content
  ⟨indexLines doc_id st.inverted_index 1 lines,
   storeSet st.document_store doc_id
     ⟨doc_name, content.length, lines.length, now⟩⟩

/-- The preprocessed and stemmed query word list of `search_documents`. -/
def queryStems (query : Str) : List Str :=
  (preprocess_text query).map simple_stem

/-- The grouping `results[doc_id].append(occurrence)` of the single-word
branch of `search_documents` (a local `defaultdict(list)`). -/
def groupByDoc (occs : List Occ) : List (Str × List Occ) :=
  occs.foldl (fun acc o => appendAssoc acc o.doc_id o) []

/-- The `doc_matches` table of the multi-word branch: doc_id to
(occurrences, set of matched query words). -/
abbrev DocMatches := List (Str × (List Occ × List Str))

/-- `doc_matches[doc_id]` update: append the occurrence and add the query
word to the matched-word set. -/
def dmAdd (dm : DocMatches) (d : Str) (o : Occ) (w : Str) : DocMatches :=
  match dm with
  | [] => [(d, ([o], [w]))]
  | (k, (os, cs)) :: rest =>
    if k = d then
      (k, (os ++ [o], if w ∈ cs then cs else cs ++ [w])) :: rest
    else (k, (os, cs)) :: dmAdd rest d o w

/-- The word loop of the multi-word branch: for each query word present in
the index, record its occurrences per document (the guarded
`inverted_index[word]` subscript is a `defaultdict` access). -/
def multiCollect : Index → DocMatches → List Str → DocMatches × Index
  | idx, dm, [] => (dm, idx)
  | idx, dm, w :: ws =>
    if (lookupAssoc idx w).isSome then
      let po := dictGetDefault idx w
      multiCollect po.2
        (po.1.foldl (fun acc o => dmAdd acc o.doc_id o w) dm) ws
    else multiCollect idx dm ws

/-- Keep the documents whose matched-word set size equals `k`
(`len(query_words)` in the source). -/
def multiResults (dm : DocMatches) (k : Nat) : List (Str × List Occ) :=
  (dm.filter (fun p => p.2.2.length == k)).map (fun p => (p.1, p.2.1))

/-- One step of the `unique_lines` loop: record the line's text only if
its line number has not been seen. -/
def ulStep (acc : List (Nat × Str)) (o : Occ) : List (Nat × Str) :=
  if acc.any (fun p => p.1 == o.line) then acc
  else acc ++ [(o.line, o.original_line)]

/-- The `unique_lines` dict of `search_documents`: first-seen original
line text per line number, in first-seen order. -/
def uniqueLines (occs : List Occ) : List (Nat × Str) :=
  occs.foldl ulStep []

/-- Order on line pairs used by `sorted(unique_lines.items())` (keys are
distinct, so tuple comparison reduces to key comparison). -/
def lineLE (a b : Nat × Str) : Prop := a.1 ≤ b.1

instance : DecidableRel lineLE := fun a b => Nat.decLe a.1 b.1

instance : IsTotal (Nat × Str) lineLE := ⟨fun a b => Nat.le_total a.1 b.1⟩

instance : IsTrans (Nat × Str) lineLE := ⟨fun _ _ _ h h2 => Nat.le_trans h h2⟩

/-- Python `sorted` on the deduplicated line pairs (stable, ascending). -/
def lineSort (l : List (Nat × Str)) : List (Nat × Str) :=
  l.insertionSort lineLE

/-- One entry of the search result list (the dict built by
`search_documents`).  The source's dict key for `match_count` is
`matches`, which is reserved syntax in Lean. -/
structure ResultEntry where
  document : Str
  doc_id : Str
  match_count : Nat
  total_lines : Nat
  lines : List (Nat × Str)
deriving DecidableEq

/-- Formatting one `(doc_id, occurrences)` group into a result entry. -/
def formatResult (store : DocStore) (p : Str × List Occ) : ResultEntry :=
  let info := lookupAssoc store p.1
  { document := ((info.map DocMeta.name).getD p.1)
    doc_id := p.1
    match_count := p.2.length
    total_lines := (info.map DocMeta.lines).getD 0
    lines := (lineSort (uniqueLines p.2)).take 20 }

/-- Comparison used by `formatted_results.sort(key=matches, reverse=True)`:
descending by raw match count.  Python list sort is stable, and a stable
sort with respect to a total preorder has a unique result, so insertion
sort models it exactly. -/
def resLE (a b : ResultEntry) : Prop := b.match_count ≤ a.match_count

instance : DecidableRel resLE := fun a b => Nat.decLe b.match_count a.match_count

instance : IsTotal ResultEntry resLE :=
  ⟨fun a b => (Nat.le_total b.match_count a.match_count).imp id id⟩

instance : IsTrans ResultEntry resLE :=
  ⟨fun a _b c h h2 => show resLE a c from Nat.le_trans h2 h⟩

/-- The final sort of `search_documents`. -/
def sortResults (l : List ResultEntry) : List ResultEntry :=
  l.insertionSort resLE

/-- The `results` grouping of `search_documents` (single- or multi-word
branch), together with the inverted index after the `defaultdict`
accesses.  The single-word early return for a missing term is represented
by the empty group list, which formats and sorts to the empty result
list exactly as the source's early `return []`. -/
def rawResults (st : AppState) (qw : List Str) : List (Str × List Occ) × Index :=
  match qw with
  | [w] =>
    if (lookupAssoc st.inverted_index w).isNone then ([], st.inverted_index)
    else
      let po := dictGetDefault st.inverted_index w
      (groupByDoc po.1, po.2)
  | _ =>
    let po := multiCollect st.inverted_index [] qw
    (multiResults po.1 qw.length, po.2)

/-- The `(doc_id, occurrences)` groups a query resolves to. -/
def groupedResults (st : AppState) (query : Str) : List (Str × List Occ) :=
  (rawResults st (queryStems query)).1

/-- The formatted result list before the final sort (encounter order). -/
def preSortResults (st : AppState) (query : Str) : List ResultEntry :=
  (groupedResults st query).map (formatResult st.document_store)

/-- `search_documents(query)` of `app.py`: the result list and the module
state after the call (the state is returned because `defaultdict`
subscripting can in principle mutate the index). -/
def search_documents (st : AppState) (query : Str) :
    List ResultEntry × AppState :=
  if (queryStems query).isEmpty then ([], st)
  else
    (sortResults (preSortResults st query),
     ⟨(rawResults st (queryStems query)).2, st.document_store⟩)

/-- The result list of a search. -/
def searchResults (st : AppState) (query : Str) : List ResultEntry :=
  (search_documents st query).1

/-- The payload of the `/stats` endpoint. -/
structure Stats where
  total_documents : Nat
  total_unique_words : Nat
  documents : List (Str × Nat × Nat)
deriving DecidableEq

/-- `stats` of `app.py`. -/
def stats (st : AppState) : Stats :=
  ⟨st.document_store.length, st.inverted_index.length,
   st.document_store.map (fun p => (p.2.name, p.2.size, p.2.lines))⟩

/-- `clear_index` of `app.py`: rebind both tables to fresh empty ones. -/
def clear_index (_ : AppState) : AppState := ⟨[], []⟩

/-- The operations an external caller can perform on the module state. -/
inductive Op
  | index (doc_id content doc_name : Str) (now : Nat)
  | reset

/-- Apply one operation. -/
def applyOp (st : AppState) : Op → AppState
  | .index d c n t => build_index st d c n t
  | .reset => clear_index st

/-- Run a sequence of operations from a given state. -/
def runOps (st : AppState) (ops : List Op) : AppState :=
  ops.foldl applyOp st

/-- The matched-word set `doc_matches[d]['word_count']` (empty when the
document has no entry). -/
def csOf (dm : DocMatches) (d : Str) : List Str :=
  ((lookupAssoc dm d).map (fun v => v.2)).getD []

/-- The occurrence list `doc_matches[d]['occurrences']` (empty when the
document has no entry). -/
def osOf (dm : DocMatches) (d : Str) : List Occ :=
  ((lookupAssoc dm d).map (fun v => v.1)).getD []

/-- The term has at least one occurrence for document `d` in the index. -/
def docContains (idx : Index) (d t : Str) : Prop :=
  ∃ o ∈ lookupListA idx t, o.doc_id = d

instance (idx : Index) (d t : Str) : Decidable (docContains idx d t) :=
  inferInstanceAs (Decidable (∃ o ∈ lookupListA idx t, o.doc_id = d))

/-- Claim C4's invariant: along every term's occurrence list, restricted
to one (doc_id, line) pair, positions are strictly increasing in append
order (hence unique). -/
def posInvariant (st : AppState) : Prop :=
  ∀ t d n,
    (((lookupListA st.inverted_index t).filter
        (fun o => o.doc_id == d && o.line == n)).map Occ.pos).Pairwise (· < ·)

/-- No document identifier is indexed twice without an intervening reset
(`seen` accumulates the identifiers indexed since the last reset). -/
def freshIds : List Op → List Str → Bool
  | [], _ => true
  | .reset :: rest, _ => freshIds rest []
  | .index d _ _ _ :: rest, seen => !seen.contains d && freshIds rest (d :: seen)

/-- Byte size of a string encoded as UTF-8: the measure the spec's phrase
"byte size of original content" denotes (the code instead stores the
number of code points, Python `len`). -/
def utf8ByteLen (s : Str) : Nat :=
  (s.map (fun c =>
    if c.toNat < 0x80 then 1 else if c.toNat < 0x800 then 2
    else if c.toNat < 0x10000 then 3 else 4)).sum

/-- Derived form of the occurrences `indexLine` appends under term `t`
for one line: one occurrence per token of the line whose stem is `t`,
positioned by its index in the line's token sequence. -/
def newLineOccs (line : Str) (d : Str) (ln : Nat) (t : Str) : List Occ :=
  ((preprocess_text line).enum.filter
      (fun pw => simple_stem pw.2 == t)).map
    (fun pw => ⟨d, ln, pw.1, (pyStrip line).take 200⟩)

/-! ### Concrete example states (inputs of witnesses and counterexamples) -/

/-- A state with one two-line document indexed. -/
def exDoc1 : AppState :=
  build_index initState "d1".data "cloud computing\ncloud storage".data "a".data 0

/-- A second document containing only one of the two query terms. -/
def exTwoDocs : AppState :=
  build_index exDoc1 "d2".data "cloud only".data "b".data 1

/-- The result entry `search_documents` produces for the query "cloud"
on `exDoc1`. -/
def exEntry1 : ResultEntry :=
  ⟨"a".data, "d1".data, 2, 2,
   [(1, "cloud computing".data), (2, "cloud storage".data)]⟩

/-- A state whose single document contains the word "cat". -/
def exCatState : AppState :=
  build_index initState "d1".data "big cat".data "n".data 0

/-- A state whose single document contains only "fishings", indexed under
the term "fishing". -/
def exFishState : AppState :=
  build_index initState "d1".data "fishings".data "n".data 0

/-! ### Lemmas about the stemmer (claim C2) -/

theorem simple_stem_shrink (w : Str) :
    simple_stem w = w ∨ (simple_stem w).length < w.length := by
  unfold simple_stem
  cases hf : suffixes.find?
      (fun suf => List.isSuffixOf suf w && decide (suf.length + 2 < w.length)) with
  | none => left; rfl
  | some suf =>
    right
    have hp := List.find?_some hf
    have hm := List.mem_of_find?_eq_some hf
    have hpos : 0 < suf.length := by
      have hall : ∀ s ∈ suffixes, 0 < s.length := by decide
      exact hall suf hm
    simp only [Bool.and_eq_true, decide_eq_true_eq] at hp
    simp only [List.length_take]
    omega

theorem simple_stem_iter_fix (n : Nat) (w : Str) (h : w.length ≤ n) :
    simple_stem (simple_stem^[n] w) = simple_stem^[n] w := by
  induction n generalizing w with
  | zero =>
    have hw : w = [] := List.eq_nil_of_length_eq_zero (Nat.le_zero.mp h)
    subst hw
    decide
  | succ n ih =>
    rcases simple_stem_shrink w with heq | hlt
    · rw [Function.iterate_fixed heq]
      exact heq
    · rw [Function.iterate_succ_apply]
      exact ih (simple_stem w) (by omega)

/-- C2 fails as stated: stemming is not idempotent across repeated calls.
In "fishings" the first qualifying suffix is "s" (the "ing" and "es"
endings do not match), giving "fishing"; a second application strips
"ing", giving "fish". -/
theorem simple_stem_not_idempotent :
    simple_stem (simple_stem "fishings".data) ≠ simple_stem "fishings".data := by
  decide

/-- C2 amended: a second application of `simple_stem` may strip a further
suffix, so stemming is not idempotent; however each application either
returns the word unchanged or strictly shortens it, so repeated
application reaches a fixed point after at most `len w` steps. -/
theorem simple_stem_descends_to_fixpoint (w : Str) :
    (simple_stem w = w ∨ (simple_stem w).length < w.length) ∧
    simple_stem (simple_stem^[w.length] w) = simple_stem^[w.length] w :=
  ⟨simple_stem_shrink w, simple_stem_iter_fix w.length w le_rfl⟩

/-! ### Document metadata size (claim C3) -/

theorem lookupAssoc_storeSet (s : DocStore) (d : Str) (m : DocMeta) :
    lookupAssoc (storeSet s d m) d = some m := by
  induction s with
  | nil => simp [storeSet, lookupAssoc]
  | cons kv rest ih =>
    obtain ⟨k, v⟩ := kv
    by_cases h : k = d <;> simp [storeSet, lookupAssoc, h, ih]

theorem utf8ByteLen_of_ascii (s : Str) (h : ∀ c ∈ s, c.toNat < 128) :
    utf8ByteLen s = s.length := by
  induction s with
  | nil => rfl
  | cons c rest ih =>
    have hc := h c (List.mem_cons_self c rest)
    have hr := ih (fun x hx => h x (List.mem_cons_of_mem c hx))
    simp only [utf8ByteLen, List.map_cons, List.sum_cons, List.length_cons] at *
    rw [if_pos (by omega)]
    omega

/-- C3 fails as stated: `build_index` stores Python `len(content)` (the
number of code points), not the byte size of the content; a single
two-byte character already separates the two. -/
theorem meta_size_not_bytes :
    ¬ ((lookupAssoc (build_index initState "d".data "é".data "n".data 0).document_store
        "d".data).map DocMeta.size = some (utf8ByteLen "é".data)) := by
  decide

/-- C3 amended: the metadata record stores the number of code points of
the original content (Python `len`), which coincides with the UTF-8 byte
size exactly when the content is pure ASCII. -/
theorem meta_size_code_points (st : AppState) (d c nm : Str) (ts : Nat) :
    lookupAssoc (build_index st d c nm ts).document_store d =
      some ⟨nm, c.length, (splitNL c).length, ts⟩ ∧
    ((∀ ch ∈ c, ch.toNat < 128) → c.length = utf8ByteLen c) :=
  ⟨lookupAssoc_storeSet st.document_store d _,
   fun h => (utf8ByteLen_of_ascii c h).symm⟩

theorem meta_size_code_points_witness :
    (∀ ch ∈ "abc".data, ch.toNat < 128) ∧
    lookupAssoc (build_index initState "d".data "abc".data "n".data 5).document_store
        "d".data = some ⟨"n".data, "abc".data.length, (splitNL "abc".data).length, 5⟩ ∧
    "abc".data.length = utf8ByteLen "abc".data :=
  ⟨by decide,
   (meta_size_code_points initState "d".data "abc".data "n".data 5).1,
   (meta_size_code_points initState "d".data "abc".data "n".data 5).2 (by decide)⟩

/-! ### Empty queries (claim C8) -/

/-- C8: a query whose normalization and stemming yields no terms (empty,
all whitespace, all stop words or short words) returns the empty result
list.  Totality of search on every input string is expressed by the
embedding itself: `search_documents` is a total function into result
lists. -/
theorem search_empty_query (st : AppState) (q : Str) (h : queryStems q = []) :
    searchResults st q = [] := by
  simp [searchResults, search_documents, h]

theorem search_empty_query_witness :
    queryStems " the of  ab ".data = [] ∧
    searchResults (build_index initState "d".data "cloud cat".data "n".data 0)
      " the of  ab ".data = [] :=
  ⟨by decide, search_empty_query _ _ (by decide)⟩

/-! ### Reset (claim C9) -/

theorem multiCollect_nil_index (qw : List Str) (dm : DocMatches) :
    multiCollect [] dm qw = (dm, []) := by
  induction qw with
  | nil => rfl
  | cons w ws ih => simpa [multiCollect, lookupAssoc] using ih

theorem rawResults_nil_index (st : AppState) (h : st.inverted_index = [])
    (qw : List Str) : (rawResults st qw).1 = [] := by
  match qw with
  | [] => simp [rawResults, h, multiCollect_nil_index, multiResults]
  | [w] => simp [rawResults, h, lookupAssoc]
  | w :: x :: rest => simp [rawResults, h, multiCollect_nil_index, multiResults]

/-- C9: reset is total.  After `clear_index`, `stats` reports zero
documents and zero distinct terms, and every query returns the empty
result list. -/
theorem reset_total (st : AppState) (q : Str) :
    (stats (clear_index st)).total_documents = 0 ∧
    (stats (clear_index st)).total_unique_words = 0 ∧
    searchResults (clear_index st) q = [] := by
  refine ⟨rfl, rfl, ?_⟩
  unfold searchResults search_documents
  split
  · rfl
  · show sortResults (preSortResults (clear_index st) q) = []
    rw [preSortResults, groupedResults, rawResults_nil_index _ rfl, List.map_nil]
    rfl

/-! ### Frame property of search (claim C10) -/

theorem multiCollect_index_eq (qw : List Str) (idx : Index) (dm : DocMatches) :
    (multiCollect idx dm qw).2 = idx := by
  induction qw generalizing dm with
  | nil => rfl
  | cons w ws ih =>
    simp only [multiCollect]
    by_cases h : (lookupAssoc idx w).isSome
    · rw [if_pos h]
      obtain ⟨v, hv⟩ := Option.isSome_iff_exists.mp h
      simp [dictGetDefault, hv, ih]
    · rw [if_neg h]
      exact ih dm

theorem rawResults_index_eq (st : AppState) (qw : List Str) :
    (rawResults st qw).2 = st.inverted_index := by
  match qw with
  | [] => simp [rawResults, multiCollect_index_eq]
  | [w] =>
    cases hl : lookupAssoc st.inverted_index w with
    | none => simp [rawResults, hl]
    | some v => simp [rawResults, hl, dictGetDefault]
  | w :: x :: rest => simp [rawResults, multiCollect_index_eq]

/-- C10: search leaves the inverted index and the document store
unchanged.  Both `defaultdict` subscripts in `search_documents` are
guarded by membership tests, so looking up an absent query term creates
no key even though the index is a default-initializing map.  (`stats`
contains no subscript of the default-initializing map at all and is
accordingly embedded as a pure function of the state.) -/
theorem search_frame (st : AppState) (q : Str) :
    (search_documents st q).2 = st := by
  unfold search_documents
  split
  · rfl
  · show (⟨(rawResults st (queryStems q)).2, st.document_store⟩ : AppState) = st
    rw [rawResults_index_eq]

/-! ### Ranking: sortedness and stability (claim C7) -/

theorem filter_orderedInsert_pos (p : ResultEntry → Bool) (a : ResultEntry)
    (l : List ResultEntry) (hpa : p a = true)
    (h : ∀ b, ¬ resLE a b → p b = false) :
    (List.orderedInsert resLE a l).filter p = a :: l.filter p := by
  induction l with
  | nil => simp [hpa]
  | cons b l ih =>
    by_cases hr : resLE a b
    · simp [List.orderedInsert, hr, hpa]
    · have hb := h b hr
      simp [List.orderedInsert, hr, hb, ih]

theorem filter_orderedInsert_neg (p : ResultEntry → Bool) (a : ResultEntry)
    (l : List ResultEntry) (hpa : p a = false) :
    (List.orderedInsert resLE a l).filter p = l.filter p := by
  induction l with
  | nil => simp [hpa]
  | cons b l ih =>
    by_cases hr : resLE a b
    · simp [List.orderedInsert, hr, hpa]
    · cases hb : p b <;> simp [List.orderedInsert, hr, hb, ih]

theorem sortResults_stable (m : Nat) (l : List ResultEntry) :
    (sortResults l).filter (fun e => e.match_count == m) =
      l.filter (fun e => e.match_count == m) := by
  unfold sortResults
  induction l with
  | nil => rfl
  | cons a l ih =>
    simp only [List.insertionSort]
    by_cases hpa : a.match_count = m
    · have h2 : ∀ b : ResultEntry, ¬ resLE a b →
          (fun e : ResultEntry => e.match_count == m) b = false := by
        intro b hr
        simp only [resLE, not_le] at hr
        simp only [beq_eq_false_iff_ne, ne_eq]
        omega
      rw [filter_orderedInsert_pos _ a _ (by simp [hpa]) h2, ih]
      simp [hpa]
    · rw [filter_orderedInsert_neg _ a _ (by simp [hpa]), ih]
      simp [hpa]

/-- C7: the result list is sorted by raw match count in descending order;
equal-count entries keep their encounter order (for every count, filtering
the output to that count gives exactly the filtered pre-sort formatted
list, in grouping/encounter order — the stable-sort property with no
secondary key); and each entry's match count is the raw length of its
document's occurrence list (line 137 of the source: `len(occurrences)`,
not deduplicated by line). -/
theorem results_sorted_stable (st : AppState) (q : Str) :
    (searchResults st q).Pairwise resLE ∧
    (∀ m, (searchResults st q).filter (fun e => e.match_count == m) =
      (preSortResults st q).filter (fun e => e.match_count == m)) ∧
    ∀ e ∈ searchResults st q, ∃ g ∈ groupedResults st q,
      e = formatResult st.document_store g ∧ e.match_count = g.2.length := by
  refine ⟨?_, ?_, ?_⟩
  · unfold searchResults search_documents
    split
    · exact List.Pairwise.nil
    · exact List.sorted_insertionSort resLE _
  · intro m
    unfold searchResults search_documents
    split
    · rename_i h
      rw [List.isEmpty_iff] at h
      have hp : preSortResults st q = [] := by
        unfold preSortResults groupedResults
        rw [h]
        rfl
      rw [hp]
    · exact sortResults_stable m _
  · intro e he
    unfold searchResults search_documents at he
    by_cases h : (queryStems q).isEmpty
    · rw [if_pos h] at he
      exact absurd he (List.not_mem_nil e)
    · rw [if_neg h] at he
      replace he : e ∈ sortResults (preSortResults st q) := he
      rw [sortResults, List.mem_insertionSort] at he
      obtain ⟨g, hg, rfl⟩ := List.mem_map.mp he
      exact ⟨g, hg, rfl, rfl⟩

/-! ### Per-document line aggregation (claim C6) -/

theorem mem_searchResults (st : AppState) (q : Str) (e : ResultEntry)
    (he : e ∈ searchResults st q) :
    ∃ g ∈ groupedResults st q, e = formatResult st.document_store g := by
  unfold searchResults search_documents at he
  by_cases h : (queryStems q).isEmpty
  · rw [if_pos h] at he
    exact absurd he (List.not_mem_nil e)
  · rw [if_neg h] at he
    replace he : e ∈ sortResults (preSortResults st q) := he
    rw [sortResults, List.mem_insertionSort] at he
    obtain ⟨g, hg, rfl⟩ := List.mem_map.mp he
    exact ⟨g, hg, rfl⟩

theorem ulFold_mem (occs : List Occ) :
    ∀ (acc : List (Nat × Str)) (pr : Nat × Str), pr ∈ occs.foldl ulStep acc →
      pr ∈ acc ∨ (acc.any (fun p => p.1 == pr.1) = false ∧
        ∃ o, occs.find? (fun o2 => o2.line == pr.1) = some o ∧
          pr = (o.line, o.original_line)) := by
  induction occs with
  | nil => exact fun acc pr h => Or.inl h
  | cons o occs ih =>
    intro acc pr h
    simp only [List.foldl_cons] at h
    by_cases hk : acc.any (fun p => p.1 == o.line) = true
    · rw [ulStep, if_pos hk] at h
      rcases ih acc pr h with h1 | ⟨h2, o2, hfind, heq⟩
      · exact Or.inl h1
      · have hne : ¬ (o.line == pr.1) = true := by
          intro hcontra
          rw [beq_iff_eq] at hcontra
          rw [← hcontra] at h2
          rw [h2] at hk
          exact Bool.noConfusion hk
        exact Or.inr ⟨h2, o2, (List.find?_cons_of_neg occs hne).trans hfind, heq⟩
    · rw [Bool.not_eq_true] at hk
      rw [ulStep, if_neg (by simp [hk])] at h
      rcases ih _ pr h with h1 | ⟨h2, o2, hfind, heq⟩
      · rcases List.mem_append.mp h1 with ha | hb
        · exact Or.inl ha
        · have hpr : pr = (o.line, o.original_line) := by simpa using hb
          refine Or.inr ⟨?_, o, ?_, hpr⟩
          · rw [hpr]
            exact hk
          · rw [hpr]
            exact List.find?_cons_of_pos _ (by simp)
      · rw [List.any_append] at h2
        have h2a : acc.any (fun p => p.1 == pr.1) = false := by
          cases hx : acc.any (fun p => p.1 == pr.1) <;> simp [hx] at h2 ⊢
        have h2b : ¬ (o.line == pr.1) = true := by
          intro hx
          simp [hx] at h2
        exact Or.inr ⟨h2a, o2, (List.find?_cons_of_neg occs h2b).trans hfind, heq⟩

theorem mem_uniqueLines (occs : List Occ) (pr : Nat × Str)
    (h : pr ∈ uniqueLines occs) :
    ∃ o, occs.find? (fun o2 => o2.line == pr.1) = some o ∧
      pr = (o.line, o.original_line) := by
  rcases ulFold_mem occs [] pr h with h1 | ⟨-, o, hf, he⟩
  · exact absurd h1 (List.not_mem_nil pr)
  · exact ⟨o, hf, he⟩

theorem ulFold_keys_mono (occs : List Occ) :
    ∀ (acc : List (Nat × Str)) (n : Nat), acc.any (fun p => p.1 == n) = true →
      (occs.foldl ulStep acc).any (fun p => p.1 == n) = true := by
  induction occs with
  | nil => exact fun acc n h => h
  | cons o occs ih =>
    intro acc n h
    simp only [List.foldl_cons]
    apply ih
    rw [ulStep]
    split
    · exact h
    · rw [List.any_append]
      simp [h]

theorem ulFold_complete (occs : List Occ) :
    ∀ (acc : List (Nat × Str)) (o : Occ), o ∈ occs →
      (occs.foldl ulStep acc).any (fun p => p.1 == o.line) = true := by
  induction occs with
  | nil => intro acc o h; exact absurd h (List.not_mem_nil o)
  | cons o2 occs ih =>
    intro acc o h
    simp only [List.foldl_cons]
    rcases List.mem_cons.mp h with rfl | hmem
    · apply ulFold_keys_mono
      rw [ulStep]
      split
      · assumption
      · rw [List.any_append]
        simp
    · exact ih _ o hmem

theorem ulFold_nodup (occs : List Occ) :
    ∀ (acc : List (Nat × Str)), (acc.map Prod.fst).Nodup →
      ((occs.foldl ulStep acc).map Prod.fst).Nodup := by
  induction occs with
  | nil => exact fun acc h => h
  | cons o occs ih =>
    intro acc hacc
    simp only [List.foldl_cons]
    apply ih
    rw [ulStep]
    by_cases hk : acc.any (fun p => p.1 == o.line) = true
    · rw [if_pos hk]
      exact hacc
    · rw [if_neg hk]
      rw [Bool.not_eq_true] at hk
      rw [List.map_append, List.nodup_append]
      refine ⟨hacc, by simp, ?_⟩
      intro x hx hx2
      obtain ⟨pr, hpr, rfl⟩ := List.mem_map.mp hx
      have hx3 : pr.1 = o.line := by simpa using hx2
      have hcon : acc.any (fun p => p.1 == o.line) = true :=
        List.any_eq_true.mpr ⟨pr, hpr, by simp [hx3]⟩
      rw [hk] at hcon
      exact Bool.noConfusion hcon

theorem uniqueLines_keys_nodup (occs : List Occ) :
    ((uniqueLines occs).map Prod.fst).Nodup :=
  ulFold_nodup occs [] (by simp)

theorem lineSort_strict (l : List (Nat × Str)) (h : (l.map Prod.fst).Nodup) :
    (lineSort l).Pairwise (fun a b => a.1 < b.1) := by
  have hs : (lineSort l).Pairwise lineLE := List.sorted_insertionSort lineLE l
  have hperm : List.Perm (lineSort l) l := List.perm_insertionSort lineLE l
  have hnd : ((lineSort l).map Prod.fst).Nodup :=
    ((hperm.map Prod.fst).nodup_iff).mpr h
  have hne : (lineSort l).Pairwise (fun a b => a.1 ≠ b.1) :=
    List.pairwise_map.mp hnd
  exact (hs.and hne).imp (fun hab => lt_of_le_of_ne hab.1 hab.2)

/-- C6: each result entry's lines field is the per-line deduplication of
its document's occurrence list: it equals the first 20 pairs of the
ascending sort of the first-seen-per-line-number pairs, so it has at most
20 entries, strictly increasing line numbers, each pair carries the text
of the first occurrence on its line (later occurrences on an already-seen
line never replace the stored text), and every occurrence's line number
is represented before the 20-entry truncation. -/
theorem result_lines_spec (st : AppState) (q : Str) (e : ResultEntry)
    (he : e ∈ searchResults st q) :
    ∃ g ∈ groupedResults st q, e = formatResult st.document_store g ∧
      e.lines = (lineSort (uniqueLines g.2)).take 20 ∧
      e.lines.length ≤ 20 ∧
      e.lines.Pairwise (fun a b => a.1 < b.1) ∧
      (∀ pr ∈ e.lines, ∃ o, g.2.find? (fun o2 => o2.line == pr.1) = some o ∧
        pr = (o.line, o.original_line)) ∧
      (∀ o ∈ g.2, (uniqueLines g.2).any (fun p => p.1 == o.line) = true) := by
  obtain ⟨g, hg, rfl⟩ := mem_searchResults st q _ he
  refine ⟨g, hg, rfl, rfl, ?_, ?_, ?_, ?_⟩
  · show ((lineSort (uniqueLines g.2)).take 20).length ≤ 20
    exact List.length_take_le 20 _
  · show ((lineSort (uniqueLines g.2)).take 20).Pairwise (fun a b => a.1 < b.1)
    exact List.Pairwise.sublist (List.take_sublist 20 _)
      (lineSort_strict _ (uniqueLines_keys_nodup g.2))
  · intro pr hpr
    have h1 : pr ∈ (uniqueLines g.2).insertionSort lineLE :=
      List.mem_of_mem_take hpr
    have h2 : pr ∈ uniqueLines g.2 := (List.mem_insertionSort lineLE).mp h1
    exact mem_uniqueLines _ _ h2
  · intro o ho
    exact ulFold_complete g.2 [] o ho

theorem result_lines_spec_witness :
    exEntry1 ∈ searchResults exDoc1 "cloud".data ∧
    ∃ g ∈ groupedResults exDoc1 "cloud".data,
      exEntry1 = formatResult exDoc1.document_store g ∧
      exEntry1.lines = (lineSort (uniqueLines g.2)).take 20 ∧
      exEntry1.lines.length ≤ 20 ∧
      exEntry1.lines.Pairwise (fun a b => a.1 < b.1) ∧
      (∀ pr ∈ exEntry1.lines, ∃ o,
        g.2.find? (fun o2 => o2.line == pr.1) = some o ∧
        pr = (o.line, o.original_line)) ∧
      (∀ o ∈ g.2, (uniqueLines g.2).any (fun p => p.1 == o.line) = true) :=
  ⟨by decide, result_lines_spec exDoc1 "cloud".data exEntry1 (by decide)⟩

/-! ### Generic lemmas about insertion-ordered association tables -/

theorem lookupListA_appendAssoc_self {β : Type} (l : List (Str × List β))
    (k : Str) (b : β) :
    lookupListA (appendAssoc l k b) k = lookupListA l k ++ [b] := by
  induction l with
  | nil => simp [appendAssoc, lookupListA, lookupAssoc]
  | cons kv rest ih =>
    obtain ⟨k0, v⟩ := kv
    by_cases h : k0 = k
    · subst h
      simp [appendAssoc, lookupListA, lookupAssoc]
    · simp only [appendAssoc, if_neg h, lookupListA, lookupAssoc]
      exact ih

theorem lookupListA_appendAssoc_ne {β : Type} (l : List (Str × List β))
    (k k' : Str) (b : β) (h : k ≠ k') :
    lookupListA (appendAssoc l k b) k' = lookupListA l k' := by
  induction l with
  | nil => simp [appendAssoc, lookupListA, lookupAssoc, h]
  | cons kv rest ih =>
    obtain ⟨k0, v⟩ := kv
    by_cases h0 : k0 = k
    · subst h0
      simp [appendAssoc, lookupListA, lookupAssoc, h]
    · by_cases h1 : k0 = k'
      · subst h1
        simp [appendAssoc, lookupListA, lookupAssoc, h0]
      · simp only [appendAssoc, if_neg h0, lookupListA, lookupAssoc]
        rw [if_neg h1, if_neg h1]
        exact ih -- keep

theorem lookupListA_foldl_appendAssoc {β γ : Type} (f : γ → Str) (g : γ → β)
    (ps : List γ) :
    ∀ (l : List (Str × List β)) (k : Str),
      lookupListA (ps.foldl (fun acc pr => appendAssoc acc (f pr) (g pr)) l) k =
        lookupListA l k ++ (ps.filter (fun pr => f pr == k)).map g := by
  induction ps with
  | nil => intro l k; simp
  | cons pr ps ih =>
    intro l k
    simp only [List.foldl_cons]
    rw [ih]
    by_cases h : f pr = k
    · subst h
      rw [lookupListA_appendAssoc_self]
      simp [List.filter_cons, List.append_assoc]
    · rw [lookupListA_appendAssoc_ne _ _ _ _ h]
      simp [List.filter_cons, h]

theorem mem_of_lookupAssoc_eq_some {β : Type} (l : List (Str × β)) (k : Str)
    (v : β) (h : lookupAssoc l k = some v) : (k, v) ∈ l := by
  induction l with
  | nil => exact absurd h (by simp [lookupAssoc])
  | cons kv rest ih =>
    obtain ⟨k0, v0⟩ := kv
    rw [lookupAssoc] at h
    by_cases h0 : k0 = k
    · rw [if_pos h0] at h
      obtain rfl := Option.some_injective _ h
      subst h0
      exact List.mem_cons_self _ _
    · rw [if_neg h0] at h
      exact List.mem_cons_of_mem _ (ih h)

theorem lookupAssoc_isSome_of_listA_ne_nil {β : Type} (l : List (Str × List β))
    (k : Str) (h : lookupListA l k ≠ []) : (lookupAssoc l k).isSome = true := by
  rw [lookupListA] at h
  cases hl : lookupAssoc l k with
  | none => rw [hl] at h; simp at h
  | some v => rfl

theorem lookupAssoc_isSome_iff_mem_keys {β : Type} (l : List (Str × β))
    (k : Str) : (lookupAssoc l k).isSome = true ↔ k ∈ l.map Prod.fst := by
  induction l with
  | nil => simp [lookupAssoc]
  | cons kv rest ih =>
    obtain ⟨k0, v0⟩ := kv
    rw [List.map_cons]
    by_cases h : k0 = k
    · subst h
      rw [lookupAssoc, if_pos rfl]
      exact ⟨fun _ => List.mem_cons_self _ _, fun _ => rfl⟩
    · rw [lookupAssoc, if_neg h, List.mem_cons, ih]
      constructor
      · exact fun h1 => Or.inr h1
      · rintro (rfl | h1)
        · exact absurd rfl h
        · exact h1

theorem lookupAssoc_eq_some_of_mem {β : Type} (l : List (Str × β)) (k : Str)
    (v : β) (hnd : (l.map Prod.fst).Nodup) (h : (k, v) ∈ l) :
    lookupAssoc l k = some v := by
  induction l with
  | nil => exact absurd h (List.not_mem_nil _)
  | cons kv rest ih =>
    obtain ⟨k0, v0⟩ := kv
    rw [List.map_cons, List.nodup_cons] at hnd
    rcases List.mem_cons.mp h with heq | htail
    · rw [Prod.mk.injEq] at heq
      obtain ⟨rfl, rfl⟩ := heq
      simp [lookupAssoc]
    · by_cases h0 : k0 = k
      · subst h0
        exact absurd (List.mem_map_of_mem Prod.fst htail) hnd.1
      · rw [lookupAssoc, if_neg h0]
        exact ih hnd.2 htail

/-! ### The multi-word matched-term table (claim C1) -/

theorem csOf_cons_self (d : Str) (p : List Occ × List Str) (rest : DocMatches) :
    csOf ((d, p) :: rest) d = p.2 := by
  simp [csOf, lookupAssoc]

theorem csOf_cons_ne (k d : Str) (p : List Occ × List Str) (rest : DocMatches)
    (h : k ≠ d) : csOf ((k, p) :: rest) d = csOf rest d := by
  simp [csOf, lookupAssoc, h]

theorem osOf_cons_ne (k d : Str) (p : List Occ × List Str) (rest : DocMatches)
    (h : k ≠ d) : osOf ((k, p) :: rest) d = osOf rest d := by
  simp [osOf, lookupAssoc, h]

theorem lookupAssoc_dmAdd_self (dm : DocMatches) (d : Str) (o : Occ) (w : Str) :
    lookupAssoc (dmAdd dm d o w) d =
      some (osOf dm d ++ [o],
        if w ∈ csOf dm d then csOf dm d else csOf dm d ++ [w]) := by
  induction dm with
  | nil => simp [dmAdd, lookupAssoc, osOf, csOf]
  | cons kv rest ih =>
    obtain ⟨k, p⟩ := kv
    obtain ⟨os, cs⟩ := p
    by_cases h : k = d
    · subst h
      simp [dmAdd, lookupAssoc, osOf, csOf]
    · rw [dmAdd, if_neg h, lookupAssoc, if_neg h, ih,
        csOf_cons_ne k d _ rest h, osOf_cons_ne k d _ rest h]

theorem lookupAssoc_dmAdd_ne (dm : DocMatches) (d d' : Str) (o : Occ) (w : Str)
    (h : d ≠ d') : lookupAssoc (dmAdd dm d o w) d' = lookupAssoc dm d' := by
  induction dm with
  | nil => simp [dmAdd, lookupAssoc, h]
  | cons kv rest ih =>
    obtain ⟨k, p⟩ := kv
    obtain ⟨os, cs⟩ := p
    by_cases h0 : k = d
    · subst h0
      rw [dmAdd, if_pos rfl, lookupAssoc, if_neg h, lookupAssoc, if_neg h]
    · rw [dmAdd, if_neg h0, lookupAssoc, lookupAssoc]
      by_cases h1 : k = d'
      · rw [if_pos h1, if_pos h1]
      · rw [if_neg h1, if_neg h1, ih]

theorem mem_csOf_dmAdd (dm : DocMatches) (d : Str) (o : Occ) (w : Str)
    (d' w' : Str) :
    w' ∈ csOf (dmAdd dm d o w) d' ↔
      w' ∈ csOf dm d' ∨ (d' = d ∧ w' = w) := by
  by_cases h : d = d'
  · subst h
    rw [csOf, lookupAssoc_dmAdd_self]
    by_cases hw : w ∈ csOf dm d
    · simp only [if_pos hw, Option.map_some', Option.getD_some]
      constructor
      · exact fun h1 => Or.inl h1
      · rintro (h1 | ⟨-, rfl⟩)
        · exact h1
        · exact hw
    · simp only [if_neg hw, Option.map_some', Option.getD_some, List.mem_append,
        List.mem_singleton]
      constructor
      · rintro (h1 | rfl)
        · exact Or.inl h1
        · exact Or.inr ⟨by trivial, by trivial⟩
      · rintro (h1 | ⟨-, rfl⟩)
        · exact Or.inl h1
        · exact Or.inr rfl
  · rw [csOf, lookupAssoc_dmAdd_ne dm d d' o w h, ← csOf]
    constructor
    · exact fun h1 => Or.inl h1
    · rintro (h1 | ⟨hc, -⟩)
      · exact h1
      · exact absurd hc.symm h

theorem mem_csOf_dmFold (w : Str) (occs : List Occ) :
    ∀ (dm : DocMatches) (d w' : Str),
      w' ∈ csOf (occs.foldl (fun acc o => dmAdd acc o.doc_id o w) dm) d ↔
        w' ∈ csOf dm d ∨ (w' = w ∧ ∃ o ∈ occs, o.doc_id = d) := by
  induction occs with
  | nil => intro dm d w'; simp
  | cons o occs ih =>
    intro dm d w'
    simp only [List.foldl_cons]
    rw [ih, mem_csOf_dmAdd]
    constructor
    · rintro ((h | ⟨hd, hw⟩) | ⟨hw, o2, ho2, hd⟩)
      · exact Or.inl h
      · exact Or.inr ⟨hw, o, List.mem_cons_self o occs, hd.symm⟩
      · exact Or.inr ⟨hw, o2, List.mem_cons_of_mem o ho2, hd⟩
    · rintro (h | ⟨hw, o2, ho2, hd⟩)
      · exact Or.inl (Or.inl h)
      · rcases List.mem_cons.mp ho2 with rfl | h3
        · exact Or.inl (Or.inr ⟨hd.symm, hw⟩)
        · exact Or.inr ⟨hw, o2, h3, hd⟩

theorem multiCollect_cons_pos (idx : Index) (dm : DocMatches) (w : Str)
    (ws : List Str) (v : List Occ) (hv : lookupAssoc idx w = some v) :
    multiCollect idx dm (w :: ws) =
      multiCollect idx (v.foldl (fun acc o => dmAdd acc o.doc_id o w) dm) ws := by
  rw [multiCollect, if_pos (by rw [hv]; rfl)]
  simp [dictGetDefault, hv]

theorem multiCollect_cons_neg (idx : Index) (dm : DocMatches) (w : Str)
    (ws : List Str) (h : lookupAssoc idx w = none) :
    multiCollect idx dm (w :: ws) = multiCollect idx dm ws := by
  rw [multiCollect, if_neg (by rw [h]; simp)]

theorem mem_csOf_multiCollect (idx : Index) (ws : List Str) :
    ∀ (dm : DocMatches) (d w' : Str),
      w' ∈ csOf (multiCollect idx dm ws).1 d ↔
        w' ∈ csOf dm d ∨ (w' ∈ ws ∧ docContains idx d w') := by
  induction ws with
  | nil => intro dm d w'; simp [multiCollect]
  | cons w ws ih =>
    intro dm d w'
    by_cases h : (lookupAssoc idx w).isSome
    · obtain ⟨v, hv⟩ := Option.isSome_iff_exists.mp h
      have hvl : lookupListA idx w = v := by rw [lookupListA, hv]; rfl
      rw [multiCollect_cons_pos idx dm w ws v hv, ih, mem_csOf_dmFold]
      constructor
      · rintro ((h1 | ⟨rfl, o, ho, hd⟩) | ⟨h2, h3⟩)
        · exact Or.inl h1
        · exact Or.inr ⟨List.mem_cons_self _ _,
            show ∃ o2 ∈ lookupListA idx w', o2.doc_id = d from
              ⟨o, by rw [hvl]; exact ho, hd⟩⟩
        · exact Or.inr ⟨List.mem_cons_of_mem _ h2, h3⟩
      · rintro (h1 | ⟨h2, h3⟩)
        · exact Or.inl (Or.inl h1)
        · rcases List.mem_cons.mp h2 with rfl | h4
          · obtain ⟨o, ho, hd⟩ := h3
            exact Or.inl (Or.inr ⟨rfl, o, by rw [hvl] at ho; exact ho, hd⟩)
          · exact Or.inr ⟨h4, h3⟩
    · rw [Option.not_isSome_iff_eq_none] at h
      rw [multiCollect_cons_neg idx dm w ws h, ih]
      have hdc : ¬ docContains idx d w := by
        intro hc
        obtain ⟨o, ho, -⟩ := hc
        rw [lookupListA, h] at ho
        exact absurd ho (List.not_mem_nil o)
      constructor
      · rintro (h1 | ⟨h2, h3⟩)
        · exact Or.inl h1
        · exact Or.inr ⟨List.mem_cons_of_mem _ h2, h3⟩
      · rintro (h1 | ⟨h2, h3⟩)
        · exact Or.inl h1
        · rcases List.mem_cons.mp h2 with rfl | h4
          · exact absurd h3 hdc
          · exact Or.inr ⟨h4, h3⟩

theorem isSome_dmAdd (dm : DocMatches) (d : Str) (o : Occ) (w d' : Str) :
    (lookupAssoc (dmAdd dm d o w) d').isSome = true ↔
      (lookupAssoc dm d').isSome = true ∨ d' = d := by
  by_cases h : d = d'
  · subst h
    rw [lookupAssoc_dmAdd_self]
    simp
  · rw [lookupAssoc_dmAdd_ne dm d d' o w h]
    constructor
    · exact fun h1 => Or.inl h1
    · rintro (h1 | rfl)
      · exact h1
      · exact absurd rfl h

theorem isSome_dmFold (w : Str) (occs : List Occ) :
    ∀ (dm : DocMatches) (d : Str),
      (lookupAssoc (occs.foldl (fun acc o => dmAdd acc o.doc_id o w) dm)
        d).isSome = true ↔
      (lookupAssoc dm d).isSome = true ∨ ∃ o ∈ occs, o.doc_id = d := by
  induction occs with
  | nil => intro dm d; simp
  | cons o occs ih =>
    intro dm d
    simp only [List.foldl_cons]
    rw [ih, isSome_dmAdd]
    constructor
    · rintro ((h1 | rfl) | ⟨o2, h2, h3⟩)
      · exact Or.inl h1
      · exact Or.inr ⟨o, List.mem_cons_self _ _, rfl⟩
      · exact Or.inr ⟨o2, List.mem_cons_of_mem _ h2, h3⟩
    · rintro (h1 | ⟨o2, h2, h3⟩)
      · exact Or.inl (Or.inl h1)
      · rcases List.mem_cons.mp h2 with rfl | h4
        · exact Or.inl (Or.inr h3.symm)
        · exact Or.inr ⟨o2, h4, h3⟩

theorem isSome_multiCollect (idx : Index) (ws : List Str) :
    ∀ (dm : DocMatches) (d : Str),
      (lookupAssoc (multiCollect idx dm ws).1 d).isSome = true ↔
        (lookupAssoc dm d).isSome = true ∨ ∃ w ∈ ws, docContains idx d w := by
  induction ws with
  | nil => intro dm d; simp [multiCollect]
  | cons w ws ih =>
    intro dm d
    by_cases h : (lookupAssoc idx w).isSome
    · obtain ⟨v, hv⟩ := Option.isSome_iff_exists.mp h
      have hvl : lookupListA idx w = v := by rw [lookupListA, hv]; rfl
      rw [multiCollect_cons_pos idx dm w ws v hv, ih, isSome_dmFold]
      constructor
      · rintro ((h1 | ⟨o, ho, hd⟩) | ⟨w2, h2, h3⟩)
        · exact Or.inl h1
        · exact Or.inr ⟨w, List.mem_cons_self _ _,
            show ∃ o2 ∈ lookupListA idx w, o2.doc_id = d from
              ⟨o, by rw [hvl]; exact ho, hd⟩⟩
        · exact Or.inr ⟨w2, List.mem_cons_of_mem _ h2, h3⟩
      · rintro (h1 | ⟨w2, h2, h3⟩)
        · exact Or.inl (Or.inl h1)
        · rcases List.mem_cons.mp h2 with rfl | h4
          · obtain ⟨o, ho, hd⟩ := h3
            exact Or.inl (Or.inr ⟨o, by rw [hvl] at ho; exact ho, hd⟩)
          · exact Or.inr ⟨w2, h4, h3⟩
    · rw [Option.not_isSome_iff_eq_none] at h
      rw [multiCollect_cons_neg idx dm w ws h, ih]
      have hdc : ¬ docContains idx d w := by
        intro hc
        obtain ⟨o, ho, -⟩ := hc
        rw [lookupListA, h] at ho
        exact absurd ho (List.not_mem_nil o)
      constructor
      · rintro (h1 | ⟨w2, h2, h3⟩)
        · exact Or.inl h1
        · exact Or.inr ⟨w2, List.mem_cons_of_mem _ h2, h3⟩
      · rintro (h1 | ⟨w2, h2, h3⟩)
        · exact Or.inl h1
        · rcases List.mem_cons.mp h2 with rfl | h4
          · exact absurd h3 hdc
          · exact Or.inr ⟨w2, h4, h3⟩

theorem dmAdd_cs_nodup (dm : DocMatches) (d : Str) (o : Occ) (w : Str)
    (h : ∀ p ∈ dm, p.2.2.Nodup) : ∀ p ∈ dmAdd dm d o w, p.2.2.Nodup := by
  induction dm with
  | nil =>
    intro p hp
    simp only [dmAdd, List.mem_singleton] at hp
    subst hp
    simp
  | cons kv rest ih =>
    obtain ⟨k, q⟩ := kv
    obtain ⟨os, cs⟩ := q
    intro p hp
    by_cases h0 : k = d
    · subst h0
      rw [dmAdd, if_pos rfl] at hp
      rcases List.mem_cons.mp hp with rfl | htail
      · show (if w ∈ cs then cs else cs ++ [w]).Nodup
        have hcs : cs.Nodup := h (k, (os, cs)) (List.mem_cons_self _ _)
        by_cases hw : w ∈ cs
        · rw [if_pos hw]
          exact hcs
        · rw [if_neg hw, List.nodup_append]
          refine ⟨hcs, by simp, ?_⟩
          intro x hx hx2
          rw [List.mem_singleton.mp hx2] at hx
          exact hw hx
      · exact h p (List.mem_cons_of_mem _ htail)
    · rw [dmAdd, if_neg h0] at hp
      rcases List.mem_cons.mp hp with rfl | htail
      · exact h _ (List.mem_cons_self _ _)
      · exact ih (fun p2 hp2 => h p2 (List.mem_cons_of_mem _ hp2)) p htail

theorem dmFold_cs_nodup (w : Str) (occs : List Occ) :
    ∀ dm, (∀ p ∈ dm, p.2.2.Nodup) →
      ∀ p ∈ occs.foldl (fun acc o => dmAdd acc o.doc_id o w) dm,
        p.2.2.Nodup := by
  induction occs with
  | nil => exact fun dm h => h
  | cons o occs ih =>
    intro dm h
    simp only [List.foldl_cons]
    exact ih _ (dmAdd_cs_nodup dm o.doc_id o w h)

theorem multiCollect_cs_nodup (idx : Index) (ws : List Str) :
    ∀ dm, (∀ p ∈ dm, p.2.2.Nodup) →
      ∀ p ∈ (multiCollect idx dm ws).1, p.2.2.Nodup := by
  induction ws with
  | nil => intro dm h; simpa [multiCollect] using h
  | cons w ws ih =>
    intro dm h
    by_cases hs : (lookupAssoc idx w).isSome
    · obtain ⟨v, hv⟩ := Option.isSome_iff_exists.mp hs
      rw [multiCollect_cons_pos idx dm w ws v hv]
      exact ih _ (dmFold_cs_nodup w v dm h)
    · rw [Option.not_isSome_iff_eq_none] at hs
      rw [multiCollect_cons_neg idx dm w ws hs]
      exact ih dm h

theorem dmAdd_keys_nodup (dm : DocMatches) (d : Str) (o : Occ) (w : Str)
    (h : (dm.map Prod.fst).Nodup) :
    ((dmAdd dm d o w).map Prod.fst).Nodup := by
  induction dm with
  | nil => simp [dmAdd]
  | cons kv rest ih =>
    obtain ⟨k, q⟩ := kv
    obtain ⟨os, cs⟩ := q
    rw [List.map_cons, List.nodup_cons] at h
    by_cases h0 : k = d
    · subst h0
      rw [dmAdd, if_pos rfl, List.map_cons, List.nodup_cons]
      exact ⟨h.1, h.2⟩
    · rw [dmAdd, if_neg h0, List.map_cons, List.nodup_cons]
      refine ⟨?_, ih h.2⟩
      intro hc
      rw [← lookupAssoc_isSome_iff_mem_keys, isSome_dmAdd] at hc
      rcases hc with hc | rfl
      · exact h.1 (by rwa [← lookupAssoc_isSome_iff_mem_keys])
      · exact h0 rfl

theorem dmFold_keys_nodup (w : Str) (occs : List Occ) :
    ∀ dm, (dm.map Prod.fst).Nodup →
      ((occs.foldl (fun acc o => dmAdd acc o.doc_id o w) dm).map
        Prod.fst).Nodup := by
  induction occs with
  | nil => exact fun dm h => h
  | cons o occs ih =>
    intro dm h
    simp only [List.foldl_cons]
    exact ih _ (dmAdd_keys_nodup dm o.doc_id o w h)

theorem multiCollect_keys_nodup (idx : Index) (ws : List Str) :
    ∀ dm, (dm.map Prod.fst).Nodup →
      (((multiCollect idx dm ws).1).map Prod.fst).Nodup := by
  induction ws with
  | nil => intro dm h; simpa [multiCollect] using h
  | cons w ws ih =>
    intro dm h
    by_cases hs : (lookupAssoc idx w).isSome
    · obtain ⟨v, hv⟩ := Option.isSome_iff_exists.mp hs
      rw [multiCollect_cons_pos idx dm w ws v hv]
      exact ih _ (dmFold_keys_nodup w v dm h)
    · rw [Option.not_isSome_iff_eq_none] at hs
      rw [multiCollect_cons_neg idx dm w ws hs]
      exact ih dm h

theorem mem_multiResults (dm : DocMatches) (k : Nat) (g : Str × List Occ) :
    g ∈ multiResults dm k ↔ ∃ cs, (g.1, (g.2, cs)) ∈ dm ∧ cs.length = k := by
  unfold multiResults
  rw [List.mem_map]
  constructor
  · rintro ⟨p, hp, rfl⟩
    rw [List.mem_filter] at hp
    exact ⟨p.2.2, hp.1, by simpa using hp.2⟩
  · rintro ⟨cs, hmem, hlen⟩
    exact ⟨(g.1, (g.2, cs)), List.mem_filter.mpr ⟨hmem, by simpa using hlen⟩, rfl⟩

/-- C1 fails as stated: the code compares the matched-term set size with
`len(query_words)` counted with multiplicity, not with the number of
distinct query terms.  The query "cat cat" stems to two equal terms, so a
document whose text contains "cat" — hence every distinct query term —
is still not returned. -/
theorem and_semantics_cex :
    2 ≤ (queryStems "cat cat".data).length ∧
    ¬ ((∃ e ∈ searchResults exCatState "cat cat".data,
          e.doc_id = "d1".data) ↔
        ∀ t ∈ queryStems "cat cat".data,
          docContains exCatState.inverted_index "d1".data t) := by
  decide

/-- C1 amended: for every query whose normalized-and-stemmed term list
has two or more entries that are moreover pairwise distinct, search
returns a document iff the document contains every query term at least
once (anywhere in the document).  Without the distinctness condition the
equivalence fails, because the code compares against the term count with
multiplicity. -/
theorem and_semantics (st : AppState) (q d : Str)
    (h2 : 2 ≤ (queryStems q).length) (hnd : (queryStems q).Nodup) :
    (∃ e ∈ searchResults st q, e.doc_id = d) ↔
      ∀ t ∈ queryStems q, docContains st.inverted_index d t := by
  rcases hq : queryStems q with - | ⟨w1, rest1⟩
  · rw [hq] at h2
    simp at h2
  rcases rest1 with - | ⟨w2, rest⟩
  · rw [hq] at h2
    simp at h2
  rw [hq] at hnd
  have hsearch : searchResults st q =
      sortResults ((multiResults
        (multiCollect st.inverted_index [] (w1 :: w2 :: rest)).1
        (w1 :: w2 :: rest).length).map (formatResult st.document_store)) := by
    unfold searchResults search_documents preSortResults groupedResults rawResults
    rw [hq]
    rfl
  have hkeysnd :
      (((multiCollect st.inverted_index [] (w1 :: w2 :: rest)).1).map
        Prod.fst).Nodup :=
    multiCollect_keys_nodup _ _ [] (by simp)
  have hcs : ∀ d' w',
      w' ∈ csOf (multiCollect st.inverted_index [] (w1 :: w2 :: rest)).1 d' ↔
        w' ∈ w1 :: w2 :: rest ∧ docContains st.inverted_index d' w' := by
    intro d' w'
    rw [mem_csOf_multiCollect]
    simp [csOf, lookupAssoc]
  have hcnd : ∀ p ∈ (multiCollect st.inverted_index [] (w1 :: w2 :: rest)).1,
      p.2.2.Nodup :=
    multiCollect_cs_nodup _ _ [] (by simp)
  constructor
  · rintro ⟨e, he, hed⟩
    rw [hsearch, sortResults, List.mem_insertionSort] at he
    obtain ⟨g, hg, rfl⟩ := List.mem_map.mp he
    have hgd : g.1 = d := hed
    obtain ⟨cs, hmem, hlen⟩ := (mem_multiResults _ _ g).mp hg
    have hlook : lookupAssoc (multiCollect st.inverted_index []
        (w1 :: w2 :: rest)).1 g.1 = some (g.2, cs) :=
      lookupAssoc_eq_some_of_mem _ _ _ hkeysnd hmem
    have hcseq : csOf (multiCollect st.inverted_index []
        (w1 :: w2 :: rest)).1 g.1 = cs := by
      rw [csOf, hlook]
      rfl
    have hcnd2 : cs.Nodup := hcnd _ hmem
    have hsub : cs ⊆ w1 :: w2 :: rest := by
      intro x hx
      exact ((hcs g.1 x).mp (hcseq ▸ hx)).1
    have hperm : List.Perm cs (w1 :: w2 :: rest) :=
      (List.subperm_of_subset hcnd2 hsub).perm_of_length_le (le_of_eq hlen.symm)
    intro t ht
    have htc : t ∈ cs := hperm.mem_iff.mpr ht
    have hdc := ((hcs g.1 t).mp (hcseq ▸ htc)).2
    exact hgd ▸ hdc
  · intro hall
    have hdc1 : docContains st.inverted_index d w1 :=
      hall w1 (List.mem_cons_self _ _)
    have hk : (lookupAssoc (multiCollect st.inverted_index []
        (w1 :: w2 :: rest)).1 d).isSome = true := by
      rw [isSome_multiCollect]
      exact Or.inr ⟨w1, List.mem_cons_self _ _, hdc1⟩
    obtain ⟨v, hv⟩ := Option.isSome_iff_exists.mp hk
    obtain ⟨os, cs⟩ := v
    have hmem : (d, (os, cs)) ∈
        (multiCollect st.inverted_index [] (w1 :: w2 :: rest)).1 :=
      mem_of_lookupAssoc_eq_some _ _ _ hv
    have hcseq : csOf (multiCollect st.inverted_index []
        (w1 :: w2 :: rest)).1 d = cs := by
      rw [csOf, hv]
      rfl
    have hcnd2 : cs.Nodup := hcnd _ hmem
    have hsub1 : cs ⊆ w1 :: w2 :: rest := fun x hx =>
      ((hcs d x).mp (hcseq ▸ hx)).1
    have hsub2 : (w1 :: w2 :: rest) ⊆ cs := by
      intro t ht
      have h3 : t ∈ csOf (multiCollect st.inverted_index []
          (w1 :: w2 :: rest)).1 d := (hcs d t).mpr ⟨ht, hall t ht⟩
      rw [hcseq] at h3
      exact h3
    have hlen : cs.length = (w1 :: w2 :: rest).length :=
      le_antisymm (List.subperm_of_subset hcnd2 hsub1).length_le
        (List.subperm_of_subset hnd hsub2).length_le
    have hmr : (d, os) ∈ multiResults
        (multiCollect st.inverted_index [] (w1 :: w2 :: rest)).1
        (w1 :: w2 :: rest).length :=
      (mem_multiResults _ _ (d, os)).mpr ⟨cs, hmem, hlen⟩
    refine ⟨formatResult st.document_store (d, os), ?_, rfl⟩
    rw [hsearch, sortResults, List.mem_insertionSort]
    exact List.mem_map_of_mem _ hmr

/-! ### Occurrence position invariant (claim C4) -/

theorem le_fst_of_mem_enumFrom {α : Type} (l : List α) :
    ∀ (m : Nat) (b : Nat × α), b ∈ List.enumFrom m l → m ≤ b.1 := by
  induction l with
  | nil => intro m b hb; exact absurd hb (List.not_mem_nil b)
  | cons a l ih =>
    intro m b hb
    rcases List.mem_cons.mp hb with rfl | hb2
    · exact le_refl m
    · exact Nat.le_of_lt (Nat.lt_of_lt_of_le (Nat.lt_succ_self m) (ih (m + 1) b hb2))

theorem pairwise_fst_lt_enumFrom {α : Type} (l : List α) :
    ∀ (m : Nat), (List.enumFrom m l).Pairwise (fun a b => a.1 < b.1) := by
  induction l with
  | nil => intro m; exact List.Pairwise.nil
  | cons a l ih =>
    intro m
    rw [List.enumFrom]
    exact List.Pairwise.cons
      (fun b hb => Nat.lt_of_lt_of_le (Nat.lt_succ_self m)
        (le_fst_of_mem_enumFrom l (m + 1) b hb))
      (ih (m + 1))

theorem pairwise_fst_lt_enum {α : Type} (l : List α) :
    l.enum.Pairwise (fun a b => a.1 < b.1) :=
  pairwise_fst_lt_enumFrom l 0

theorem lookupListA_indexLine (idx : Index) (d : Str) (ln : Nat)
    (line t : Str) :
    lookupListA (indexLine idx d ln line) t =
      lookupListA idx t ++ newLineOccs line d ln t :=
  @lookupListA_foldl_appendAssoc Occ (Nat × Str)
    (fun pw => simple_stem pw.2)
    (fun pw => (⟨d, ln, pw.1, (pyStrip line).take 200⟩ : Occ))
    (preprocess_text line).enum idx t

theorem mem_newLineOccs (line d : Str) (ln : Nat) (t : Str) (o : Occ)
    (h : o ∈ newLineOccs line d ln t) : o.doc_id = d ∧ o.line = ln := by
  obtain ⟨pw, -, rfl⟩ := List.mem_map.mp h
  exact ⟨rfl, rfl⟩

theorem newLineOccs_pos_pairwise (line d : Str) (ln : Nat) (t : Str) :
    ((newLineOccs line d ln t).map Occ.pos).Pairwise (· < ·) := by
  rw [newLineOccs, List.map_map]
  have h1 : ((preprocess_text line).enum.filter
      (fun pw => simple_stem pw.2 == t)).Pairwise (fun a b => a.1 < b.1) :=
    (pairwise_fst_lt_enum (preprocess_text line)).filter _
  exact List.pairwise_map.mpr h1

theorem newLineOccs_filter_self (line d : Str) (ln : Nat) (t : Str) :
    (newLineOccs line d ln t).filter
      (fun o => o.doc_id == d && o.line == ln) = newLineOccs line d ln t := by
  rw [List.filter_eq_self]
  intro o ho
  obtain ⟨h1, h2⟩ := mem_newLineOccs line d ln t o ho
  simp [h1, h2]

theorem newLineOccs_filter_nil (line d : Str) (ln : Nat) (t d' : Str) (n : Nat)
    (h : ¬ (d' = d ∧ n = ln)) :
    (newLineOccs line d ln t).filter
      (fun o => o.doc_id == d' && o.line == n) = [] := by
  rw [List.filter_eq_nil_iff]
  intro o ho
  obtain ⟨h1, h2⟩ := mem_newLineOccs line d ln t o ho
  subst h1 h2
  intro hc
  rw [Bool.and_eq_true, beq_iff_eq, beq_iff_eq] at hc
  exact h ⟨hc.1.symm, hc.2.symm⟩

theorem mem_lookupListA_indexLines (d : Str) :
    ∀ (lines : List Str) (idx : Index) (ln : Nat) (t : Str) (o : Occ),
      o ∈ lookupListA (indexLines d idx ln lines) t →
      o ∈ lookupListA idx t ∨ o.doc_id = d := by
  intro lines
  induction lines with
  | nil => intro idx ln t o ho; exact Or.inl ho
  | cons l ls ih =>
    intro idx ln t o ho
    rw [indexLines] at ho
    rcases ih _ (ln + 1) t o ho with h1 | h2
    · by_cases hb : (pyStrip l).isEmpty
      · rw [if_pos hb] at h1
        exact Or.inl h1
      · rw [if_neg hb, lookupListA_indexLine] at h1
        rcases List.mem_append.mp h1 with h3 | h3
        · exact Or.inl h3
        · exact Or.inr (mem_newLineOccs l d ln t o h3).1
    · exact Or.inr h2

theorem indexLines_preserves (d : Str) :
    ∀ (lines : List Str) (idx : Index) (ln : Nat),
      (∀ t d' n, (((lookupListA idx t).filter
          (fun o => o.doc_id == d' && o.line == n)).map Occ.pos).Pairwise
          (· < ·)) →
      (∀ t o, o ∈ lookupListA idx t → o.doc_id = d → o.line < ln) →
      ∀ t d' n, (((lookupListA (indexLines d idx ln lines) t).filter
          (fun o => o.doc_id == d' && o.line == n)).map Occ.pos).Pairwise
          (· < ·) := by
  intro lines
  induction lines with
  | nil => intro idx ln hinv hline; exact hinv
  | cons l ls ih =>
    intro idx ln hinv hline
    rw [indexLines]
    by_cases hb : (pyStrip l).isEmpty
    · rw [if_pos hb]
      refine ih idx (ln + 1) hinv ?_
      intro t o ho hod
      exact Nat.lt_succ_of_lt (hline t o ho hod)
    · rw [if_neg hb]
      refine ih (indexLine idx d ln l) (ln + 1) ?_ ?_
      · intro t d' n
        rw [lookupListA_indexLine, List.filter_append, List.map_append]
        by_cases hdn : d' = d ∧ n = ln
        · obtain ⟨rfl, rfl⟩ := hdn
          have hold : (lookupListA idx t).filter
              (fun o => o.doc_id == d' && o.line == n) = [] := by
            rw [List.filter_eq_nil_iff]
            intro o ho hc
            rw [Bool.and_eq_true, beq_iff_eq, beq_iff_eq] at hc
            exact absurd hc.2 (Nat.ne_of_lt (hline t o ho hc.1))
          rw [hold, newLineOccs_filter_self]
          simpa using newLineOccs_pos_pairwise l d' n t
        · rw [newLineOccs_filter_nil l d ln t d' n hdn]
          simpa using hinv t d' n
      · intro t o ho hod
        rw [lookupListA_indexLine] at ho
        rcases List.mem_append.mp ho with h1 | h1
        · exact Nat.lt_succ_of_lt (hline t o h1 hod)
        · rw [(mem_newLineOccs l d ln t o h1).2]
          exact Nat.lt_succ_self ln

theorem runOps_posInvariant :
    ∀ (ops : List Op) (st : AppState) (seen : List Str),
      posInvariant st →
      (∀ t o, o ∈ lookupListA st.inverted_index t → o.doc_id ∈ seen) →
      freshIds ops seen = true →
      posInvariant (runOps st ops) := by
  intro ops
  induction ops with
  | nil => intro st seen h1 h2 h3; exact h1
  | cons op rest ih =>
    intro st seen h1 h2 h3
    cases op with
    | reset =>
      rw [freshIds] at h3
      refine ih (clear_index st) [] ?_ ?_ h3
      · intro t d n
        simp [clear_index, lookupListA, lookupAssoc]
      · intro t o ho
        simp [clear_index, lookupListA, lookupAssoc] at ho
    | index dc c nm ts =>
      rw [freshIds, Bool.and_eq_true] at h3
      obtain ⟨hfresh, h3'⟩ := h3
      have hnotin : dc ∉ seen := by
        intro hc
        rw [Bool.not_eq_true'] at hfresh
        have hel : seen.contains dc = true := List.elem_eq_true_of_mem hc
        rw [hfresh] at hel
        exact Bool.noConfusion hel
      have hnod : ∀ t o, o ∈ lookupListA st.inverted_index t →
          o.doc_id = dc → o.line < 1 := by
        intro t o ho hod
        exact absurd (hod ▸ h2 t o ho) hnotin
      refine ih (build_index st dc c nm ts) (dc :: seen) ?_ ?_ h3'
      · intro t d' n
        exact indexLines_preserves dc (splitNL c) st.inverted_index 1
          h1 hnod t d' n
      · intro t o ho
        rcases mem_lookupListA_indexLines dc (splitNL c)
            st.inverted_index 1 t o ho with h4 | h4
        · exact List.mem_cons_of_mem dc (h2 t o h4)
        · rw [h4]
          exact List.mem_cons_self dc seen

/-- C4 fails as stated: indexing the same doc_id twice (which is a legal
operation sequence) appends a second pass of occurrences whose positions
restart at 0, so within (doc_id "d", line 1) the positions are [0, 0] —
neither unique nor increasing. -/
theorem positions_increasing_cex :
    ¬ posInvariant (runOps initState
      [Op.index "d".data "cat".data "n".data 0,
       Op.index "d".data "cat".data "n".data 0]) := by
  intro h
  have h2 := h "cat".data "d".data 1
  revert h2
  decide

/-- C4 amended: after any sequence of index and reset operations in which
no doc_id is indexed twice since the last reset (the spec's stated usage
discipline: identifiers are unique per upload), every term's occurrence
list, restricted to any (doc_id, line) pair, has strictly increasing
(hence unique) position values in append order. -/
theorem positions_increasing (ops : List Op) (h : freshIds ops [] = true) :
    posInvariant (runOps initState ops) := by
  refine runOps_posInvariant ops initState [] ?_ ?_ h
  · intro t d n
    simp [initState, lookupListA, lookupAssoc]
  · intro t o ho
    simp [initState, lookupListA, lookupAssoc] at ho

theorem positions_increasing_witness :
    freshIds [Op.index "d1".data "cat cat dog".data "n".data 0, Op.reset,
      Op.index "d1".data "big cat".data "n".data 1] [] = true ∧
    posInvariant (runOps initState
      [Op.index "d1".data "cat cat dog".data "n".data 0, Op.reset,
       Op.index "d1".data "big cat".data "n".data 1]) :=
  ⟨by decide, positions_increasing _ (by decide)⟩

/-! ### Tokens re-tokenize to themselves (claim C5) -/

theorem char_toNat_ofNat (n : Nat) (h : n.isValidChar) :
    (Char.ofNat n).toNat = n := by
  rw [Char.ofNat, dif_pos h]
  rfl

theorem toLower_spec (c : Char) :
    Char.toLower c =
      if c.toNat ≥ 65 ∧ c.toNat ≤ 90 then Char.ofNat (c.toNat + 32) else c :=
  rfl

theorem toLower_not_upper (c : Char) :
    ¬ ((Char.toLower c).toNat ≥ 65 ∧ (Char.toLower c).toNat ≤ 90) := by
  rw [toLower_spec]
  by_cases h : c.toNat ≥ 65 ∧ c.toNat ≤ 90
  · rw [if_pos h]
    have hv : (c.toNat + 32).isValidChar := Or.inl (by omega)
    rw [char_toNat_ofNat _ hv]
    omega
  · rw [if_neg h]
    exact h

theorem toLower_toLower (c : Char) :
    Char.toLower (Char.toLower c) = Char.toLower c := by
  rw [toLower_spec (Char.toLower c), if_neg (toLower_not_upper c)]

theorem toLower_of_space (c : Char) (h : isPySpace c = true) :
    Char.toLower c = c := by
  rw [toLower_spec, if_neg]
  simp only [isPySpace, Bool.or_eq_true, Bool.and_eq_true, beq_iff_eq,
    decide_eq_true_eq] at h
  omega

theorem map_id_of_forall {α : Type} (l : List α) (f : α → α)
    (h : ∀ a ∈ l, f a = a) : l.map f = l := by
  induction l with
  | nil => rfl
  | cons a l ih =>
    rw [List.map_cons, h a (List.mem_cons_self a l),
      ih (fun x hx => h x (List.mem_cons_of_mem a hx))]

theorem pySplitAux_mem (s : Str) :
    ∀ (acc w : Str), (∀ c ∈ acc, isPySpace c = false) → w ∈ pySplitAux s acc →
      w ≠ [] ∧ ∀ c ∈ w, isPySpace c = false ∧ (c ∈ acc ∨ c ∈ s) := by
  induction s with
  | nil =>
    intro acc w hacc hw
    rw [pySplitAux] at hw
    split at hw
    · exact absurd hw (List.not_mem_nil w)
    · rename_i hne
      rw [List.mem_singleton] at hw
      subst hw
      refine ⟨?_, ?_⟩
      · intro hc
        rw [List.reverse_eq_nil_iff] at hc
        exact hne (by rw [hc]; rfl)
      · intro c hc
        rw [List.mem_reverse] at hc
        exact ⟨hacc c hc, Or.inl hc⟩
  | cons c0 rest ih =>
    intro acc w hacc hw
    rw [pySplitAux] at hw
    by_cases hsp : isPySpace c0 = true
    · rw [if_pos hsp] at hw
      by_cases hae : acc.isEmpty = true
      · rw [if_pos hae] at hw
        obtain ⟨hne, hchars⟩ :=
          ih [] w (fun c hc => absurd hc (List.not_mem_nil c)) hw
        refine ⟨hne, fun c hc => ⟨(hchars c hc).1, Or.inr ?_⟩⟩
        rcases (hchars c hc).2 with h | h
        · exact absurd h (List.not_mem_nil c)
        · exact List.mem_cons_of_mem c0 h
      · rw [if_neg hae] at hw
        rcases List.mem_cons.mp hw with rfl | hw2
        · refine ⟨?_, ?_⟩
          · intro hc
            rw [List.reverse_eq_nil_iff] at hc
            exact hae (by rw [hc]; rfl)
          · intro c hc
            rw [List.mem_reverse] at hc
            exact ⟨hacc c hc, Or.inl hc⟩
        · obtain ⟨hne, hchars⟩ :=
            ih [] w (fun c hc => absurd hc (List.not_mem_nil c)) hw2
          refine ⟨hne, fun c hc => ⟨(hchars c hc).1, Or.inr ?_⟩⟩
          rcases (hchars c hc).2 with h | h
          · exact absurd h (List.not_mem_nil c)
          · exact List.mem_cons_of_mem c0 h
    · rw [if_neg hsp] at hw
      rw [Bool.not_eq_true] at hsp
      have hacc2 : ∀ c ∈ c0 :: acc, isPySpace c = false := by
        intro c hc
        rcases List.mem_cons.mp hc with rfl | h3
        · exact hsp
        · exact hacc c h3
      obtain ⟨hne, hchars⟩ := ih (c0 :: acc) w hacc2 hw
      refine ⟨hne, fun c hc => ?_⟩
      obtain ⟨h1, h2⟩ := hchars c hc
      refine ⟨h1, ?_⟩
      rcases h2 with h | h
      · rcases List.mem_cons.mp h with rfl | h3
        · exact Or.inr (List.mem_cons_self _ _)
        · exact Or.inl h3
      · exact Or.inr (List.mem_cons_of_mem c0 h)

theorem pySplitAux_all_nonspace (s : Str) :
    ∀ acc, (∀ c ∈ s, isPySpace c = false) →
      pySplitAux s acc =
        if acc.isEmpty && s.isEmpty then [] else [acc.reverse ++ s] := by
  induction s with
  | nil =>
    intro acc h
    rw [pySplitAux]
    cases acc with
    | nil => rfl
    | cons a as => simp
  | cons c0 rest ih =>
    intro acc h
    have hc0 : isPySpace c0 = false := h c0 (List.mem_cons_self _ _)
    rw [pySplitAux, if_neg (by rw [hc0]; simp),
      ih (c0 :: acc) (fun c hc => h c (List.mem_cons_of_mem c0 hc))]
    simp [List.reverse_cons, List.append_assoc]

theorem pySplit_single (w : Str) (hne : w ≠ [])
    (h : ∀ c ∈ w, isPySpace c = false) : pySplit w = [w] := by
  rw [pySplit, pySplitAux_all_nonspace w [] h]
  rw [if_neg (by simp [hne])]
  simp

theorem pySplit_all_space (s : Str) (h : ∀ c ∈ s, isPySpace c = true) :
    pySplit s = [] := by
  rw [pySplit]
  induction s with
  | nil => rfl
  | cons c0 rest ih =>
    rw [pySplitAux, if_pos (h c0 (List.mem_cons_self _ _))]
    simpa using ih (fun c hc => h c (List.mem_cons_of_mem c0 hc))

theorem all_space_of_pyStrip_nil (s : Str)
    (h : (pyStrip s).isEmpty = true) : ∀ c ∈ s, isPySpace c = true := by
  rw [List.isEmpty_iff, pyStrip, List.reverse_eq_nil_iff,
    List.dropWhile_eq_nil_iff] at h
  intro c hc
  have hc2 : c ∈ s.takeWhile isPySpace ++ s.dropWhile isPySpace := by
    rw [List.takeWhile_append_dropWhile]
    exact hc
  rcases List.mem_append.mp hc2 with h1 | h1
  · exact List.mem_takeWhile_imp h1
  · exact h c (List.mem_reverse.mpr h1)

theorem preprocess_blank (line : Str) (h : (pyStrip line).isEmpty = true) :
    preprocess_text line = [] := by
  have hall : ∀ c ∈ line, isPySpace c = true := all_space_of_pyStrip_nil line h
  show (pySplit (((line.map Char.toLower).filter
      (fun c => c.toNat < 128)).map (fun c => if isPunct c then ' ' else c))).filter
      (fun w => !STOP_WORDS.contains w && decide (2 < w.length)) = []
  rw [pySplit_all_space, List.filter_nil]
  intro c hc
  obtain ⟨c1, hc1, rfl⟩ := List.mem_map.mp hc
  rw [List.mem_filter] at hc1
  obtain ⟨c0, hc0, rfl⟩ := List.mem_map.mp hc1.1
  have h0 : isPySpace c0 = true := hall c0 hc0
  rw [toLower_of_space c0 h0]
  split
  · decide
  · exact h0

theorem preprocess_self (s w : Str) (hw : w ∈ preprocess_text s) :
    preprocess_text w = [w] := by
  have hw2 : w ∈ (pySplit (((s.map Char.toLower).filter
      (fun c => c.toNat < 128)).map (fun c => if isPunct c then ' ' else c))).filter
      (fun w2 => !STOP_WORDS.contains w2 && decide (2 < w2.length)) := hw
  rw [List.mem_filter] at hw2
  obtain ⟨hmem, hpred⟩ := hw2
  obtain ⟨hne, hchars⟩ :=
    pySplitAux_mem _ [] w (fun c hc => absurd hc (List.not_mem_nil c)) hmem
  have hprop : ∀ c ∈ w, isPySpace c = false ∧ Char.toLower c = c ∧
      c.toNat < 128 ∧ isPunct c = false := by
    intro c hc
    obtain ⟨hns, hmem2⟩ := hchars c hc
    rcases hmem2 with h1 | h1
    · exact absurd h1 (List.not_mem_nil c)
    · obtain ⟨c1, hc1, heq⟩ := List.mem_map.mp h1
      rw [List.mem_filter] at hc1
      obtain ⟨c0, hc0, rfl⟩ := List.mem_map.mp hc1.1
      by_cases hp : isPunct (Char.toLower c0) = true
      · rw [if_pos hp] at heq
        rw [← heq] at hns
        exact absurd hns (by decide)
      · rw [Bool.not_eq_true] at hp
        rw [if_neg (by rw [hp]; simp)] at heq
        subst heq
        exact ⟨hns, toLower_toLower c0, by simpa using hc1.2, hp⟩
  have e1 : w.map Char.toLower = w :=
    map_id_of_forall w Char.toLower (fun c hc => (hprop c hc).2.1)
  have e2 : w.filter (fun c => decide (c.toNat < 128)) = w :=
    List.filter_eq_self.mpr (fun c hc => by simpa using (hprop c hc).2.2.1)
  have e3 : w.map (fun c => if isPunct c then ' ' else c) = w :=
    map_id_of_forall w _
      (fun c hc => by rw [if_neg (by rw [(hprop c hc).2.2.2]; simp)])
  have e4 : pySplit w = [w] :=
    pySplit_single w hne (fun c hc => (hprop c hc).1)
  show (pySplit (((w.map Char.toLower).filter
      (fun c => c.toNat < 128)).map (fun c => if isPunct c then ' ' else c))).filter
      (fun w2 => !STOP_WORDS.contains w2 && decide (2 < w2.length)) = [w]
  rw [e1, e2, e3, e4, List.filter_cons, if_pos hpred, List.filter_nil]

theorem lookupListA_indexLines_mono (d : Str) :
    ∀ (lines : List Str) (idx : Index) (ln : Nat) (t : Str) (o : Occ),
      o ∈ lookupListA idx t → o ∈ lookupListA (indexLines d idx ln lines) t := by
  intro lines
  induction lines with
  | nil => intro idx ln t o h; exact h
  | cons l ls ih =>
    intro idx ln t o h
    rw [indexLines]
    apply ih
    by_cases hb : (pyStrip l).isEmpty
    · rw [if_pos hb]
      exact h
    · rw [if_neg hb, lookupListA_indexLine]
      exact List.mem_append_left _ h

theorem mem_enum_of_mem {α : Type} (l : List α) (w : α) (h : w ∈ l) :
    ∃ i, (i, w) ∈ l.enum := by
  obtain ⟨i, hi⟩ := List.mem_iff_getElem?.mp h
  refine ⟨i, ?_⟩
  have h2 : (0 + i, w) ∈ List.enumFrom 0 l :=
    List.mk_add_mem_enumFrom_iff_getElem?.mpr hi
  rw [Nat.zero_add] at h2
  exact h2

theorem mem_newLineOccs_of_token (line d : Str) (ln : Nat) (w : Str)
    (hw : w ∈ preprocess_text line) :
    ∃ o ∈ newLineOccs line d ln (simple_stem w), o.doc_id = d := by
  obtain ⟨i, hi⟩ := mem_enum_of_mem _ w hw
  refine ⟨⟨d, ln, i, (pyStrip line).take 200⟩, ?_, rfl⟩
  have hf : (i, w) ∈ (preprocess_text line).enum.filter
      (fun pw => simple_stem pw.2 == simple_stem w) :=
    List.mem_filter.mpr ⟨hi, by simp⟩
  exact List.mem_map_of_mem _ hf

theorem indexLines_token (d : Str) :
    ∀ (lines : List Str) (idx : Index) (ln : Nat) (line w : Str),
      line ∈ lines → w ∈ preprocess_text line →
      ∃ o ∈ lookupListA (indexLines d idx ln lines) (simple_stem w),
        o.doc_id = d := by
  intro lines
  induction lines with
  | nil => intro idx ln line w h1 _; exact absurd h1 (List.not_mem_nil line)
  | cons l ls ih =>
    intro idx ln line w hline hw
    rw [indexLines]
    rcases List.mem_cons.mp hline with rfl | h2
    · have hnb : ¬ (pyStrip line).isEmpty = true := by
        intro hb
        rw [preprocess_blank line hb] at hw
        exact absurd hw (List.not_mem_nil w)
      rw [if_neg hnb]
      obtain ⟨o, ho, hod⟩ := mem_newLineOccs_of_token line d ln w hw
      refine ⟨o, ?_, hod⟩
      apply lookupListA_indexLines_mono
      rw [lookupListA_indexLine]
      exact List.mem_append_right _ ho
    · exact ih _ (ln + 1) line w h2 hw

theorem lookupListA_groupByDoc (occs : List Occ) (k : Str) :
    lookupListA (groupByDoc occs) k = occs.filter (fun o => o.doc_id == k) := by
  have h := @lookupListA_foldl_appendAssoc Occ Occ (fun o => o.doc_id)
    (fun o => o) occs [] k
  simpa [lookupListA, lookupAssoc] using h

/-- C5 fails as stated (reading "term" as in the spec's glossary: a
stemmed index key): a term present in the index for a document can be
unreachable, because the query is stemmed again.  Indexing "fishings"
creates the term "fishing", yet searching "fishing" stems the query to
"fish" and returns nothing. -/
theorem single_term_cex :
    docContains exFishState.inverted_index "d1".data "fishing".data ∧
    ¬ (∃ e ∈ searchResults exFishState "fishing".data,
        e.doc_id = "d1".data ∧ 1 ≤ e.match_count) := by
  decide

/-- C5 amended: for every indexed document D and every word w that D's
normalization kept (w is a token of `preprocess_text` of one of D's
lines), `search(w)` returns D with match_count at least 1.  For a raw
index term (stemmed key) the claim fails, since search stems the query
again. -/
theorem single_token_found (st : AppState) (d content nm : Str) (ts : Nat)
    (line w : Str) (hline : line ∈ splitNL content)
    (hw : w ∈ preprocess_text line) :
    ∃ e ∈ searchResults (build_index st d content nm ts) w,
      e.doc_id = d ∧ 1 ≤ e.match_count := by
  have hself : preprocess_text w = [w] := preprocess_self line w hw
  have hqs : queryStems w = [simple_stem w] := by
    rw [queryStems, hself]
    rfl
  obtain ⟨o, ho, hod⟩ :=
    indexLines_token d (splitNL content) st.inverted_index 1 line w hline hw
  have hne2 : lookupListA (build_index st d content nm ts).inverted_index
      (simple_stem w) ≠ [] := by
    intro hc
    have hc2 : lookupListA (indexLines d st.inverted_index 1 (splitNL content))
        (simple_stem w) = [] := hc
    rw [hc2] at ho
    exact absurd ho (List.not_mem_nil o)
  obtain ⟨v, hv⟩ := Option.isSome_iff_exists.mp
    (lookupAssoc_isSome_of_listA_ne_nil _ _ hne2)
  have hvl : lookupListA (build_index st d content nm ts).inverted_index
      (simple_stem w) = v := by
    rw [lookupListA, hv]
    rfl
  have hov : o ∈ v := by
    rw [← hvl]
    exact ho
  have hsearch : searchResults (build_index st d content nm ts) w =
      sortResults ((groupByDoc v).map
        (formatResult (build_index st d content nm ts).document_store)) := by
    unfold searchResults search_documents preSortResults groupedResults rawResults
    rw [hqs]
    simp [hv, dictGetDefault]
  have hog : o ∈ lookupListA (groupByDoc v) d := by
    rw [lookupListA_groupByDoc]
    exact List.mem_filter.mpr ⟨hov, by simp [hod]⟩
  have hgne : lookupListA (groupByDoc v) d ≠ [] := by
    intro hc
    rw [hc] at hog
    exact absurd hog (List.not_mem_nil o)
  obtain ⟨os, hos⟩ := Option.isSome_iff_exists.mp
    (lookupAssoc_isSome_of_listA_ne_nil _ _ hgne)
  have hosl : lookupListA (groupByDoc v) d = os := by
    rw [lookupListA, hos]
    rfl
  have hmem : (d, os) ∈ groupByDoc v := mem_of_lookupAssoc_eq_some _ _ _ hos
  refine ⟨formatResult (build_index st d content nm ts).document_store (d, os),
    ?_, rfl, ?_⟩
  · rw [hsearch, sortResults, List.mem_insertionSort]
    exact List.mem_map_of_mem _ hmem
  · have hoos : o ∈ os := by
      rw [← hosl]
      exact hog
    exact List.length_pos.mpr (List.ne_nil_of_mem hoos)

theorem single_token_found_witness :
    "cloud computing".data ∈ splitNL "cloud computing".data ∧
    "cloud".data ∈ preprocess_text "cloud computing".data ∧
    ∃ e ∈ searchResults
        (build_index initState "d1".data "cloud computing".data "a".data 0)
        "cloud".data,
      e.doc_id = "d1".data ∧ 1 ≤ e.match_count :=
  ⟨by decide, by decide,
   single_token_found initState "d1".data "cloud computing".data "a".data 0
     "cloud computing".data "cloud".data (by decide) (by decide)⟩

theorem and_semantics_witness :
    2 ≤ (queryStems "cloud storage".data).length ∧
    (queryStems "cloud storage".data).Nodup ∧
    ((∃ e ∈ searchResults exTwoDocs "cloud storage".data,
        e.doc_id = "d1".data) ↔
      ∀ t ∈ queryStems "cloud storage".data,
        docContains exTwoDocs.inverted_index "d1".data t) :=
  ⟨by decide, by decide,
   and_semantics exTwoDocs "cloud storage".data "d1".data (by decide) (by decide)⟩

end App
